import Mathlib

/-
Verification of the compile-time tree-traversal example in
`src/rapid_snippit.cpp` (RAPID-metaprog-snippit).

The C++ program declares trees whose shape is fixed at compile time:
`InternalNode<Name, ChildNodes...>` variadically inherits its children and
records them in the compile-time list `base_type`; `LeafNode<Name, T>` holds
one scalar `val`.  A generic engine `inher_tree_scan` walks the child list of
a node and applies a functor (`add_eq`, `rand_gen_f`, `print_f`) once per
child, in declaration order.  We shallowly embed the trees as a nested
inductive whose node values carry the compile-time data (name tag, scalar
type) together with the runtime scalar payload, and embed each traversal as a
state-passing recursion that mirrors the corresponding member function.

Scalar payloads are modelled as `Rat`: the sample produced by the C++
`std::normal_distribution<>` is a `double`, and exact rationals stand in for
doubles (rounding of `float`/`double` arithmetic is abstracted away; the only
arithmetic performed on payloads is `+=`).  `static_cast<T>` of a `double` to
an integral type truncates toward zero, which is modelled exactly.
-/

/-- The scalar types that appear as `LeafNode` payload types in the program
(`int`, `float`, `double`, `long`, see `main`, src lines 256-270). -/
inductive ScalarTy where
  | int
  | float
  | double
  | long
deriving DecidableEq

/-- Truncation toward zero of a rational, the conversion C++ performs for
`static_cast<IntegralType>(double)`. -/
def ratTrunc (x : Rat) : Int := if x < 0 then -((-x).floor) else x.floor

/-- Model of `static_cast<T>(d)` for a `double` sample `d` (src line 231):
integral targets truncate toward zero; floating targets keep the value
(float/double rounding is abstracted, payloads being exact rationals). -/
def ScalarTy.cast : ScalarTy → Rat → Rat
  | .int, x => (ratTrunc x : Int)
  | .long, x => (ratTrunc x : Int)
  | .float, x => x
  | .double, x => x

/-- A tree instance.  `leaf name ty val` embeds `LeafNode<Name, T>` with its
runtime payload `val` (src lines 207-235); `node name children` embeds
`InternalNode<Name, ChildNodes...>` whose children, in declaration order,
are the variadically inherited bases recorded in `base_type`
(src lines 166-200). -/
inductive Node where
  | leaf (name : String) (ty : ScalarTy) (val : Rat)
  | node (name : String) (children : List Node)

/-- The compile-time type of a tree: name tags, scalar types and nesting,
with the runtime payloads erased.  Two C++ node types are the same type iff
their shapes are equal. -/
inductive Shape where
  | leaf (name : String) (ty : ScalarTy)
  | node (name : String) (children : List Shape)

mutual

/-- The compile-time type of a tree instance. -/
def Node.shape : Node → Shape
  | .leaf n ty _ => .leaf n ty
  | .node n cs => .node n (shapeList cs)

/-- Shapes of a child list, in declaration order. -/
def shapeList : List Node → List Shape
  | [] => []
  | c :: cs => c.shape :: shapeList cs

end

mutual

/-- Boolean equality of shapes (needed because `deriving DecidableEq` is not
available for this nested inductive). -/
def shapeBeq : Shape → Shape → Bool
  | .leaf n ty, .leaf m ty2 => decide (n = m) && decide (ty = ty2)
  | .node n cs, .node m ds => decide (n = m) && shapeListBeq cs ds
  | _, _ => false

/-- Boolean equality of shape lists. -/
def shapeListBeq : List Shape → List Shape → Bool
  | [], [] => true
  | c :: cs, d :: ds => shapeBeq c d && shapeListBeq cs ds
  | _, _ => false

end

/-- The shape-compatibility criterion the spec states (spec section 4.1):
identical child-type sequences for composites, with the two top-level name
tags left unconstrained; identical name tag and scalar type for leaves.
NOTE: for a composite with at least one child this is strictly WEAKER than
what the program actually accepts, because instantiating the body of
`operator+=` additionally forces the two top-level name tags to agree (see
`combineAccepted` below).  It is therefore used only as a hypothesis: every
pair the program can combine satisfies it, so theorems assuming it cover
all combines the program admits, and more. -/
def shapesCompatible : Shape → Shape → Bool
  | .node _ cs, .node _ ds => shapeListBeq cs ds
  | .leaf n ty, .leaf m ty2 => decide (n = m) && decide (ty = ty2)
  | _, _ => false

/-- Shape compatibility of two tree instances: the spec criterion applied to
their compile-time types.  Weaker than the acceptance the program enforces
(`combineAccepted`); every pair the program can combine satisfies it. -/
def compatible (a b : Node) : Bool := shapesCompatible a.shape b.shape

/-- Whether the combine `a += b` actually compiles in the C++ program, as a
function of the two static types.  Overload resolution against
`InternalNode& operator+=(InternalNode<RhsName, ChildNodes...>& rhs)`
(src lines 176-177) demands identical child-type sequences while leaving
`RhsName` free; but instantiating the body triggers, for each child,
`add_eq::apply<Parent, Child>(p, rhs)` (src line 94) whose declared
parameters are `(Parent& a, Parent& b)` (src lines 130-131) with
`Parent = InternalNode<Name, ChildNodes...>` — the full type of the LEFT
operand — and an lvalue of the unrelated sibling instantiation
`InternalNode<RhsName, ChildNodes...>` cannot bind to `Parent&`, so for a
composite with at least one child the right operand must carry the same
name tag `Name` or the combine is a hard compile error.  A composite with
no children never instantiates `apply` (the scan is only the tag-dispatched
base case, src line 78), so there, and only there, the name tags may
differ.  For leaves, `LeafNode& operator+=(LeafNode&)` (src lines 214-217)
demands the identical leaf type, name tag included. -/
def combineAccepted : Shape → Shape → Bool
  | .node n cs, .node m ds =>
      shapeListBeq cs ds && (decide (n = m) || cs.isEmpty)
  | .leaf n ty, .leaf m ty2 => decide (n = m) && decide (ty = ty2)
  | _, _ => false

-- ******************************************************************
-- THE TRAVERSAL ENGINE
-- ******************************************************************

/-- Embedding of `inher_tree_scan_recur` (src lines 77-104).  The compile-time
list `Bases` of remaining child types becomes the list `bases`; the
`mpl::bool_` tag dispatch becomes the leading `Bool` argument (`true` selects
the base case, src line 78; `false` the recursive case, src lines 82-104,
which applies `Func::apply` to the first base with the forwarded runtime
parameters `ps` and recurses on the popped list with the recomputed
emptiness tag).  The mutable store reached through the forwarded references
(the parent object and any by-reference parameters) is the state `s`;
parameters that the scan merely forwards are `ps`. -/
def inher_tree_scan_recur {Child : Type u} {π : Type v} {σ : Type w}
    (F : Child → π → σ → σ) : Bool → List Child → π → σ → σ
  | true, _, _, s => s
  | false, [], _, s => s
  | false, c :: rest, ps, s =>
      inher_tree_scan_recur F rest.isEmpty rest ps (F c ps s)

/-- Embedding of the helper `inher_tree_scan` (src lines 109-120): computes
the initial emptiness tag for `Parent::base_type` and makes the initial
`inher_tree_scan_recur` call. -/
def inher_tree_scan {Child : Type u} {π : Type v} {σ : Type w}
    (F : Child → π → σ → σ) (bases : List Child) (ps : π) (s : σ) : σ :=
  inher_tree_scan_recur F bases.isEmpty bases ps s

-- ******************************************************************
-- THE ELEMENTWISE COMBINE TRAVERSAL (operator+= / add_eq)
-- ******************************************************************

mutual

/-- Embedding of `a += b`.  Both operands are reached through references, so
the traversal returns the final state of both.  Leaf case: `this->val +=
rhs.val` (src lines 214-217).  Internal case: `inher_tree_scan<add_eq>(*this,
rhs)` (src lines 176-181) applies `add_eq::apply` — `get<Child>(a) +=
get<Child>(b)` (src lines 128-135) — once per child type in declaration
order; under the acceptance criterion the children of `a` and `b` carry
identical type sequences, and all direct bases of a well-formed C++ class are
distinct types, so the by-static-type subobject lookup `get<Child>` is the
positional pairing of the two child lists.  The final catch-all covers shape
mismatches the C++ compiler rejects; it is never reached from compatible
operands. -/
def addEq : Node → Node → Node × Node
  | .leaf n ty v, .leaf m ty2 w => (.leaf n ty (v + w), .leaf m ty2 w)
  | .node n cs, .node m ds =>
      (.node n (addEqChildren cs ds).1, .node m (addEqChildren cs ds).2)
  | a, b => (a, b)

/-- The `inher_tree_scan<add_eq>` loop over the two child lists, in
declaration order. -/
def addEqChildren : List Node → List Node → List Node × List Node
  | c :: cs, d :: ds =>
      ((addEq c d).1 :: (addEqChildren cs ds).1,
       (addEq c d).2 :: (addEqChildren cs ds).2)
  | cs, ds => (cs, ds)

end

-- ******************************************************************
-- THE PRINT TRAVERSAL (print / print_f)
-- ******************************************************************

/-- The conditional separator of `print`: `if (prefix != "") prefix += " ";`
(src lines 184-188 and 220-221). -/
def spaced (p : String) : String := if p = "" then p else p ++ " "

mutual

/-- Embedding of `print(prefix)`.  `print` is a non-const member reached
through a reference, so the traversal returns the (possibly updated) tree
together with the emitted standard-output lines, one list entry per
`std::endl`-terminated line.  Leaf case (src lines 220-223): emit
`prefix' + name + " == " + val` where `prefix'` is the conditionally spaced
prefix.  Internal case (src lines 184-191): append the own name tag to the
conditionally spaced prefix, then `inher_tree_scan<print_f>` applies
`print_f::apply` — `get<Child>(a).print(prefix)` (src lines 150-156) — once
per child in declaration order, the new prefix being passed by value to each
child. -/
def printRun (pfx : String) : Node → Node × List String
  | .leaf n ty v =>
      (.leaf n ty v, [spaced pfx ++ n ++ " == " ++ toString v])
  | .node n cs =>
      (.node n (printRunChildren (spaced pfx ++ n) cs).1,
       (printRunChildren (spaced pfx ++ n) cs).2)

/-- The `inher_tree_scan<print_f>` loop over the child list, in declaration
order; output lines of successive children are emitted in sequence. -/
def printRunChildren (pfx : String) : List Node → List Node × List String
  | [] => ([], [])
  | c :: cs =>
      ((printRun pfx c).1 :: (printRunChildren pfx cs).1,
       (printRun pfx c).2 ++ (printRunChildren pfx cs).2)

end

/-- The standard-output lines emitted by `print(pfx)`. -/
def printLines (pfx : String) (t : Node) : List String := (printRun pfx t).2

-- ******************************************************************
-- THE RANDOMIZE TRAVERSAL (rand_gen / rand_gen_f)
-- ******************************************************************

/-- The process-local random source (`std::mt19937 gen` in `main`, passed by
reference through the whole randomize traversal).  Successive draws read
successive positions of an abstract stream of standard-normal variates;
`pos` is the number of draws consumed so far. -/
structure RandSource where
  stream : Nat → Rat
  pos : Nat

/-- Embedding of `std::normal_distribution<>dist{mean, sd}; dist(gen)`
(src line 230-231): one fresh draw, advancing the source by exactly one
position.  A normal variate with the requested parameters is `mean + sd * z`
for a standard-normal `z`; the floating-point machinery producing `z` from
the engine is abstracted into the stream. -/
def normalSample (mean sd : Rat) (g : RandSource) : Rat × RandSource :=
  (mean + sd * g.stream g.pos, ⟨g.stream, g.pos + 1⟩)

mutual

/-- Embedding of `rand_gen(gen)`.  Leaf case (src lines 228-232): draw one
sample from `std::normal_distribution<>{100, 50}` and assign
`val = static_cast<T>(sample)`, discarding the old payload.  Internal case
(src lines 194-199): `inher_tree_scan<rand_gen_f>` applies
`rand_gen_f::apply` — `get<Child>(a).rand_gen(g)` (src lines 139-146) — once
per child in declaration order, the generator reference threading its state
through the successive calls. -/
def rand_gen : Node → RandSource → Node × RandSource
  | .leaf n ty _, g =>
      (.leaf n ty (ScalarTy.cast ty (normalSample 100 50 g).1),
       (normalSample 100 50 g).2)
  | .node n cs, g =>
      (.node n (rand_gen_children cs g).1, (rand_gen_children cs g).2)

/-- The `inher_tree_scan<rand_gen_f>` loop over the child list, in
declaration order. -/
def rand_gen_children : List Node → RandSource → List Node × RandSource
  | [], g => ([], g)
  | c :: cs, g =>
      ((rand_gen c g).1 :: (rand_gen_children cs (rand_gen c g).2).1,
       (rand_gen_children cs (rand_gen c g).2).2)

end

-- ******************************************************************
-- DEFAULT CONSTRUCTION
-- ******************************************************************

mutual

/-- The default-constructed tree instance of a declared shape, as built by
`Bar foo, bar;` in `main` (src line 272): `InternalNode` default-constructs
its bases recursively, and `LeafNode() : val() {}` (src line 212)
value-initializes the payload to the zero of its scalar type. -/
def defaultNode : Shape → Node
  | .leaf n ty => .leaf n ty 0
  | .node n cs => .node n (defaultChildren cs)

/-- Recursive default construction of the children. -/
def defaultChildren : List Shape → List Node
  | [] => []
  | c :: cs => defaultNode c :: defaultChildren cs

end

-- ******************************************************************
-- OBSERVATIONS OF A TREE (declaration-order leaf data)
-- ******************************************************************

mutual

/-- The leaves of a tree in declaration order (pre-order, depth-first):
name tag, scalar type and current payload of each. -/
def Node.leaves : Node → List (String × ScalarTy × Rat)
  | .leaf n ty v => [(n, ty, v)]
  | .node _ cs => leavesList cs

/-- Leaves of a child list, in declaration order. -/
def leavesList : List Node → List (String × ScalarTy × Rat)
  | [] => []
  | c :: cs => c.leaves ++ leavesList cs

end

/-- The compile-time-declared sequence of leaf name tags, in declaration
order (pre-order, depth-first). -/
def Node.leafNames (t : Node) : List String := t.leaves.map (fun e => e.1)

/-- The declared scalar types of the leaves, in declaration order. -/
def Node.leafTys (t : Node) : List ScalarTy := t.leaves.map (fun e => e.2.1)

/-- The current leaf payloads, in declaration order. -/
def Node.leafVals (t : Node) : List Rat := t.leaves.map (fun e => e.2.2)

mutual

/-- The leaves declared by a shape, in declaration order. -/
def Shape.leaves : Shape → List (String × ScalarTy)
  | .leaf n ty => [(n, ty)]
  | .node _ cs => shapeLeavesList cs

/-- Leaves declared by a shape list, in declaration order. -/
def shapeLeavesList : List Shape → List (String × ScalarTy)
  | [] => []
  | c :: cs => c.leaves ++ shapeLeavesList cs

end

mutual

/-- The leaves of a tree annotated with the composite-name path from the
root down to each leaf (root first), stated directly from the declared
structure, independently of `print`. -/
def leafEntries : Node → List (List String × String × Rat)
  | .leaf n _ v => [([], n, v)]
  | .node n cs => (leafEntriesList cs).map (fun e => (n :: e.1, e.2))

/-- Path-annotated leaves of a child list, in declaration order. -/
def leafEntriesList : List Node → List (List String × String × Rat)
  | [] => []
  | c :: cs => leafEntries c ++ leafEntriesList cs

end

mutual

/-- Whether every internal node of the tree carries a nonempty name tag. -/
def internalNamesNonempty : Node → Bool
  | .leaf _ _ _ => true
  | .node n cs => decide (n ≠ "") && internalNamesNonemptyList cs

/-- Nonempty internal names over a child list. -/
def internalNamesNonemptyList : List Node → Bool
  | [] => true
  | c :: cs => internalNamesNonempty c && internalNamesNonemptyList cs

end

/-- The payload sequence that one randomize traversal is specified to leave
behind, given the declared scalar types of the leaves in declaration order:
the i-th leaf receives the cast of the one fresh `N(100, 50)` sample drawn
at stream position `g.pos + i`. -/
def expectedVals (g : RandSource) : List ScalarTy → List Rat
  | [] => []
  | ty :: tys =>
      ScalarTy.cast ty (100 + 50 * g.stream g.pos) ::
        expectedVals ⟨g.stream, g.pos + 1⟩ tys

/-- The prefix with which a leaf at composite-name path `path` (root first)
is printed when the traversal starts with prefix `pfx`: each composite on
the way conditionally spaces the prefix and appends its own name, and the
leaf conditionally spaces the result. -/
def accPrefix (pfx : String) (path : List String) : String :=
  spaced (path.foldl (fun p n => spaced p ++ n) pfx)

/-- Space-joined concatenation of a list of names. -/
def joinSpace : List String → String
  | [] => ""
  | [x] => x
  | x :: xs => x ++ " " ++ joinSpace xs

/-- An instance of the tree type `Bar` declared in `main` (src lines 256-270):
`one { A:int, B:float, two { D:double, three { E:long } }, F:double, G:int }`,
here with payloads 2, 3, 4, 5, 6, 7 in declaration order. -/
def barTree : Node :=
  .node "one"
    [.leaf "A" .int 2, .leaf "B" .float 3,
     .node "two" [.leaf "D" .double 4, .node "three" [.leaf "E" .long 5]],
     .leaf "F" .double 6, .leaf "G" .int 7]

/-- A second instance of the same declared shape (payloads 10, 20, 30, 40,
50, 60 in declaration order), playing the role of `foo` in `main`. -/
def fooTree : Node :=
  .node "one"
    [.leaf "A" .int 10, .leaf "B" .float 20,
     .node "two" [.leaf "D" .double 30, .node "three" [.leaf "E" .long 40]],
     .leaf "F" .double 50, .leaf "G" .int 60]

-- ******************************************************************
-- HELPER LEMMAS
-- ******************************************************************

mutual

theorem shapeBeq_iff : ∀ a b : Shape, shapeBeq a b = true ↔ a = b
  | .leaf n ty, .leaf m ty2 => by simp [shapeBeq]
  | .node n cs, .node m ds => by
      simp [shapeBeq, shapeListBeq_iff cs ds]
  | .leaf _ _, .node _ _ => by simp [shapeBeq]
  | .node _ _, .leaf _ _ => by simp [shapeBeq]

theorem shapeListBeq_iff : ∀ cs ds : List Shape, shapeListBeq cs ds = true ↔ cs = ds
  | [], [] => by simp [shapeListBeq]
  | c :: cs, d :: ds => by
      simp [shapeListBeq, shapeBeq_iff c d, shapeListBeq_iff cs ds]
  | [], _ :: _ => by simp [shapeListBeq]
  | _ :: _, [] => by simp [shapeListBeq]

end

theorem shapeListBeq_refl (cs : List Shape) : shapeListBeq cs cs = true :=
  (shapeListBeq_iff cs cs).2 rfl

theorem shapesCompatible_refl (s : Shape) : shapesCompatible s s = true := by
  cases s with
  | leaf n ty => simp [shapesCompatible]
  | node n cs => simp [shapesCompatible, shapeListBeq_refl]

theorem compatible_of_shape_eq {a b : Node} (h : a.shape = b.shape) :
    compatible a b = true := by
  unfold compatible
  rw [h]
  exact shapesCompatible_refl _

mutual

theorem shape_leaves_eq : ∀ t : Node,
    t.shape.leaves = t.leaves.map (fun e => (e.1, e.2.1))
  | .leaf n ty v => by simp [Node.shape, Shape.leaves, Node.leaves]
  | .node n cs => by
      simp [Node.shape, Shape.leaves, Node.leaves, shapeList_leaves_eq cs]

theorem shapeList_leaves_eq : ∀ cs : List Node,
    shapeLeavesList (shapeList cs) = (leavesList cs).map (fun e => (e.1, e.2.1))
  | [] => by simp [shapeList, shapeLeavesList, leavesList]
  | c :: cs => by
      simp [shapeList, shapeLeavesList, leavesList, shape_leaves_eq c,
        shapeList_leaves_eq cs]

end

theorem leaves_length_of_shape_eq {a b : Node} (h : a.shape = b.shape) :
    a.leaves.length = b.leaves.length := by
  have := shape_leaves_eq a
  rw [h, shape_leaves_eq b] at this
  calc a.leaves.length = (a.leaves.map (fun e => (e.1, e.2.1))).length := by simp
    _ = (b.leaves.map (fun e => (e.1, e.2.1))).length := by rw [← this]
    _ = b.leaves.length := by simp

theorem inher_tree_scan_recur_log {Child : Type u} {π : Type v} {σ : Type w}
    (F : Child → π → σ → σ) :
    ∀ (cs : List Child) (ps : π) (s : σ) (L : List (Child × π)),
    inher_tree_scan_recur
        (fun c p st => (F c p st.1, st.2 ++ [(c, p)])) cs.isEmpty cs ps (s, L)
      = (inher_tree_scan_recur F cs.isEmpty cs ps s,
         L ++ cs.map (fun c => (c, ps)))
  | [], ps, s, L => by simp [inher_tree_scan_recur]
  | c :: cs, ps, s, L => by
      simp [inher_tree_scan_recur, inher_tree_scan_recur_log F cs ps (F c ps s) (L ++ [(c, ps)])]

theorem inher_tree_scan_eq_foldl {Child : Type u} {π : Type v} {σ : Type w}
    (F : Child → π → σ → σ) :
    ∀ (cs : List Child) (ps : π) (s : σ),
    inher_tree_scan F cs ps s = cs.foldl (fun s c => F c ps s) s
  | [], ps, s => by simp [inher_tree_scan, inher_tree_scan_recur]
  | c :: cs, ps, s => by
      simp [inher_tree_scan, inher_tree_scan_recur] at *
      simpa using inher_tree_scan_eq_foldl F cs ps (F c ps s)

mutual

theorem addEq_snd : ∀ a b : Node, (addEq a b).2 = b
  | .leaf n ty v, .leaf m ty2 w => by simp [addEq]
  | .node n cs, .node m ds => by simp [addEq, addEqChildren_snd cs ds]
  | .leaf _ _ _, .node _ _ => by simp [addEq]
  | .node _ _, .leaf _ _ _ => by simp [addEq]

theorem addEqChildren_snd : ∀ cs ds : List Node, (addEqChildren cs ds).2 = ds
  | c :: cs, d :: ds => by
      simp [addEqChildren, addEq_snd c d, addEqChildren_snd cs ds]
  | [], [] => by simp [addEqChildren]
  | [], _ :: _ => by simp [addEqChildren]
  | _ :: _, [] => by simp [addEqChildren]

end

mutual

theorem addEq_fst : ∀ a b : Node, a.shape = b.shape →
    (addEq a b).1.shape = a.shape ∧
    (addEq a b).1.leaves =
      List.zipWith (fun ea eb => (ea.1, ea.2.1, ea.2.2 + eb.2.2))
        a.leaves b.leaves
  | .leaf n ty v, .leaf m ty2 w => by
      intro h
      simp [Node.shape] at h
      simp [addEq, Node.shape, Node.leaves]
  | .node n cs, .node m ds => by
      intro h
      simp [Node.shape] at h
      have ih := addEqChildren_fst cs ds h.2
      simp [addEq, Node.shape, Node.leaves, ih.1, ih.2]
  | .leaf n ty v, .node m ds => by
      intro h
      simp [Node.shape] at h
  | .node n cs, .leaf m ty2 w => by
      intro h
      simp [Node.shape] at h

theorem addEqChildren_fst : ∀ cs ds : List Node, shapeList cs = shapeList ds →
    shapeList (addEqChildren cs ds).1 = shapeList cs ∧
    leavesList (addEqChildren cs ds).1 =
      List.zipWith (fun ea eb => (ea.1, ea.2.1, ea.2.2 + eb.2.2))
        (leavesList cs) (leavesList ds)
  | [], [] => by
      intro h
      simp [addEqChildren, shapeList, leavesList]
  | c :: cs, d :: ds => by
      intro h
      simp [shapeList] at h
      have ihc := addEq_fst c d h.1
      have ihs := addEqChildren_fst cs ds h.2
      have hlen : c.leaves.length = d.leaves.length :=
        leaves_length_of_shape_eq h.1
      simp [addEqChildren, shapeList, leavesList, ihc.1, ihc.2, ihs.1, ihs.2,
        List.zipWith_append _ c.leaves (leavesList cs) d.leaves (leavesList ds) hlen]
  | [], _ :: _ => by
      intro h
      simp [shapeList] at h
  | _ :: _, [] => by
      intro h
      simp [shapeList] at h

end

mutual

theorem printRun_fst : ∀ (pfx : String) (t : Node), (printRun pfx t).1 = t
  | pfx, .leaf n ty v => by simp [printRun]
  | pfx, .node n cs => by
      simp [printRun, printRunChildren_fst (spaced pfx ++ n) cs]

theorem printRunChildren_fst : ∀ (pfx : String) (cs : List Node),
    (printRunChildren pfx cs).1 = cs
  | pfx, [] => by simp [printRunChildren]
  | pfx, c :: cs => by
      simp [printRunChildren, printRun_fst pfx c, printRunChildren_fst pfx cs]

end

theorem accPrefix_cons (pfx n : String) (p : List String) :
    accPrefix pfx (n :: p) = accPrefix (spaced pfx ++ n) p := rfl

mutual

theorem printLines_eq : ∀ (pfx : String) (t : Node),
    printLines pfx t =
      (leafEntries t).map
        (fun e => accPrefix pfx e.1 ++ e.2.1 ++ " == " ++ toString e.2.2)
  | pfx, .leaf n ty v => by
      simp [printLines, printRun, leafEntries, accPrefix]
  | pfx, .node n cs => by
      have ih := printChildrenLines_eq (spaced pfx ++ n) cs
      simp [printLines, printRun, leafEntries] at *
      simp [ih, accPrefix_cons]

theorem printChildrenLines_eq : ∀ (pfx : String) (cs : List Node),
    (printRunChildren pfx cs).2 =
      (leafEntriesList cs).map
        (fun e => accPrefix pfx e.1 ++ e.2.1 ++ " == " ++ toString e.2.2)
  | pfx, [] => by simp [printRunChildren, leafEntriesList]
  | pfx, c :: cs => by
      have ih1 := printLines_eq pfx c
      have ih2 := printChildrenLines_eq pfx cs
      simp [printLines] at ih1
      simp [printRunChildren, leafEntriesList, ih1, ih2]

end

mutual

theorem leafEntries_proj : ∀ t : Node,
    (leafEntries t).map (fun e => e.2) = t.leaves.map (fun e => (e.1, e.2.2))
  | .leaf n ty v => by simp [leafEntries, Node.leaves]
  | .node n cs => by
      simp [leafEntries, Node.leaves, Function.comp]
      simpa [Function.comp] using leafEntriesList_proj cs

theorem leafEntriesList_proj : ∀ cs : List Node,
    (leafEntriesList cs).map (fun e => e.2)
      = (leavesList cs).map (fun e => (e.1, e.2.2))
  | [] => by simp [leafEntriesList, leavesList]
  | c :: cs => by
      simp [leafEntriesList, leavesList, leafEntries_proj c,
        leafEntriesList_proj cs]

end

theorem append_ne_empty_of_right {s t : String} (h : t ≠ "") : s ++ t ≠ "" := by
  intro he
  have hd : (s ++ t).data = ([] : List Char) := by rw [he]
  rw [String.data_append] at hd
  exact h (String.ext (List.append_eq_nil.mp hd).2)

theorem spaced_of_ne {s : String} (h : s ≠ "") : spaced s = s ++ " " := by
  simp [spaced, h]

theorem joinSpace_cons (x : String) (xs : List String) (h : xs ≠ []) :
    joinSpace (x :: xs) = x ++ " " ++ joinSpace xs := by
  cases xs with
  | nil => exact absurd rfl h
  | cons y ys => rfl

theorem accPrefix_join : ∀ (path : List String) (pfx name : String),
    (∀ x ∈ path, x ≠ "") →
    accPrefix pfx path ++ name = spaced pfx ++ joinSpace (path ++ [name])
  | [], pfx, name, _ => by simp [accPrefix, joinSpace]
  | n :: p, pfx, name, h => by
      have hn : n ≠ "" := h n (by simp)
      have ih := accPrefix_join p (spaced pfx ++ n) name
        (fun x hx => h x (by simp [hx]))
      rw [accPrefix_cons, ih, spaced_of_ne (append_ne_empty_of_right hn)]
      rw [List.cons_append, joinSpace_cons n (p ++ [name]) (by simp)]
      simp [String.append_assoc]

mutual

theorem leafEntries_paths_nonempty : ∀ t : Node,
    internalNamesNonempty t = true →
    ∀ e ∈ leafEntries t, ∀ x ∈ e.1, x ≠ ""
  | .leaf n ty v => by
      intro _ e he x hx
      simp [leafEntries] at he
      subst he
      simp at hx
  | .node n cs => by
      intro h e he x hx
      simp [internalNamesNonempty] at h
      simp only [leafEntries] at he
      obtain ⟨e0, he0, rfl⟩ := List.mem_map.mp he
      simp only [List.mem_cons] at hx
      rcases hx with rfl | hx
      · exact h.1
      · exact leafEntriesList_paths_nonempty cs h.2 e0 he0 x hx

theorem leafEntriesList_paths_nonempty : ∀ cs : List Node,
    internalNamesNonemptyList cs = true →
    ∀ e ∈ leafEntriesList cs, ∀ x ∈ e.1, x ≠ ""
  | [] => by intro _ e he; simp [leafEntriesList] at he
  | c :: cs => by
      intro h e he x hx
      simp [internalNamesNonemptyList] at h
      simp [leafEntriesList] at he
      rcases he with he | he
      · exact leafEntries_paths_nonempty c h.1 e he x hx
      · exact leafEntriesList_paths_nonempty cs h.2 e he x hx

end

theorem expectedVals_append : ∀ (tys1 tys2 : List ScalarTy) (g : RandSource),
    expectedVals g (tys1 ++ tys2)
      = expectedVals g tys1
        ++ expectedVals ⟨g.stream, g.pos + tys1.length⟩ tys2
  | [], tys2, g => by simp [expectedVals]
  | ty :: tys1, tys2, g => by
      have ih := expectedVals_append tys1 tys2 ⟨g.stream, g.pos + 1⟩
      have harith : g.pos + 1 + tys1.length = g.pos + (tys1.length + 1) := by
        omega
      simp [expectedVals, ih, harith]

mutual

theorem rand_gen_spec : ∀ (t : Node) (g : RandSource),
    (rand_gen t g).1.shape = t.shape ∧
    (rand_gen t g).2 = ⟨g.stream, g.pos + t.leaves.length⟩ ∧
    (rand_gen t g).1.leaves.map (fun e => e.2.2)
      = expectedVals g (t.leaves.map (fun e => e.2.1))
  | .leaf n ty v, g => by
      simp [rand_gen, Node.shape, Node.leaves, expectedVals, normalSample]
  | .node n cs, g => by
      have ih := rand_gen_children_spec cs g
      simp [rand_gen, Node.shape, Node.leaves, ih.1, ih.2.1, ih.2.2]

theorem rand_gen_children_spec : ∀ (cs : List Node) (g : RandSource),
    shapeList (rand_gen_children cs g).1 = shapeList cs ∧
    (rand_gen_children cs g).2 = ⟨g.stream, g.pos + (leavesList cs).length⟩ ∧
    (leavesList (rand_gen_children cs g).1).map (fun e => e.2.2)
      = expectedVals g ((leavesList cs).map (fun e => e.2.1))
  | [], g => by simp [rand_gen_children, shapeList, leavesList, expectedVals]
  | c :: cs, g => by
      have ih1 := rand_gen_spec c g
      have ih2 := rand_gen_children_spec cs ⟨g.stream, g.pos + c.leaves.length⟩
      have harith : g.pos + c.leaves.length + (leavesList cs).length
          = g.pos + (c.leaves.length + (leavesList cs).length) := by omega
      have happ := expectedVals_append (c.leaves.map (fun e => e.2.1))
        ((leavesList cs).map (fun e => e.2.1)) g
      simp at happ
      simp [rand_gen_children, shapeList, leavesList, ih1.1, ih1.2.1,
        ih1.2.2, ih2.1, ih2.2.1, ih2.2.2, harith, happ]

end

mutual

theorem defaultNode_spec : ∀ s : Shape,
    (defaultNode s).shape = s ∧
    (defaultNode s).leaves = s.leaves.map (fun e => (e.1, e.2, (0 : Rat)))
  | .leaf n ty => by simp [defaultNode, Node.shape, Node.leaves, Shape.leaves]
  | .node n cs => by
      have ih := defaultChildren_spec cs
      simp [defaultNode, Node.shape, Node.leaves, Shape.leaves, ih.1, ih.2]

theorem defaultChildren_spec : ∀ cs : List Shape,
    shapeList (defaultChildren cs) = cs ∧
    leavesList (defaultChildren cs)
      = (shapeLeavesList cs).map (fun e => (e.1, e.2, (0 : Rat)))
  | [] => by simp [defaultChildren, shapeList, leavesList, shapeLeavesList]
  | c :: cs => by
      have ih1 := defaultNode_spec c
      have ih2 := defaultChildren_spec cs
      simp [defaultChildren, shapeList, leavesList, shapeLeavesList,
        ih1.1, ih1.2, ih2.1, ih2.2]

end

theorem leafVals_zip (l1 l2 : List (String × ScalarTy × Rat)) :
    (List.zipWith (fun ea eb => (ea.1, ea.2.1, ea.2.2 + eb.2.2)) l1 l2).map
        (fun e => e.2.2)
      = List.zipWith (· + ·) (l1.map (fun e => e.2.2))
          (l2.map (fun e => e.2.2)) := by
  rw [List.map_zipWith, List.zipWith_map]

-- ******************************************************************
-- CLAIM THEOREMS
-- ******************************************************************

/-- C1: for shape-compatible trees `A` and `B`, the elementwise combine
`A += B` leaves the composite structure of `A` (number, type and nesting of
children, name tags included) unchanged and updates every leaf of `A`, in
declaration order, to its old value plus the corresponding leaf of `B`. -/
theorem combine_adds_leafwise_and_preserves_structure (a b : Node)
    (h : compatible a b = true) :
    (addEq a b).1.shape = a.shape ∧
    (addEq a b).1.leafVals = List.zipWith (· + ·) a.leafVals b.leafVals := by
  cases a with
  | leaf n ty v =>
      cases b with
      | leaf m ty2 w =>
          simp [addEq, Node.shape, Node.leaves, Node.leafVals]
      | node m ds =>
          simp [compatible, Node.shape, shapesCompatible] at h
  | node n cs =>
      cases b with
      | leaf m ty2 w =>
          simp [compatible, Node.shape, shapesCompatible] at h
      | node m ds =>
          simp [compatible, Node.shape, shapesCompatible,
            shapeListBeq_iff] at h
          have ih := addEqChildren_fst cs ds h
          constructor
          · simp [addEq, Node.shape, ih.1]
          · simp [addEq, Node.leafVals, Node.leaves, ih.2, leafVals_zip]

theorem combine_adds_leafwise_and_preserves_structure_witness :
    compatible barTree fooTree = true ∧
    ((addEq barTree fooTree).1.shape = barTree.shape ∧
     (addEq barTree fooTree).1.leafVals =
       List.zipWith (· + ·) barTree.leafVals fooTree.leafVals) :=
  ⟨by simp [compatible, barTree, fooTree, Node.shape, shapeList,
      shapesCompatible, shapeListBeq, shapeBeq],
   combine_adds_leafwise_and_preserves_structure barTree fooTree
     (by simp [compatible, barTree, fooTree, Node.shape, shapeList,
        shapesCompatible, shapeListBeq, shapeBeq])⟩

/-- C2: `print` emits exactly one line per leaf, the lines correspond to the
path-annotated leaves in declaration order (pre-order, depth-first), and
projecting out the embedded leaf names gives exactly the compile-time
declared leaf-name sequence in declaration order. -/
theorem print_visits_each_leaf_once_in_declaration_order
    (pfx : String) (t : Node) :
    printLines pfx t
      = (leafEntries t).map
          (fun e => accPrefix pfx e.1 ++ e.2.1 ++ " == " ++ toString e.2.2) ∧
    (leafEntries t).map (fun e => e.2.1) = t.leafNames := by
  refine ⟨printLines_eq pfx t, ?_⟩
  have hp := leafEntries_proj t
  have : ((leafEntries t).map (fun e => e.2)).map (fun x => x.1)
      = (t.leaves.map (fun e => (e.1, e.2.2))).map (fun x => x.1) := by
    rw [hp]
  simpa [List.map_map, Function.comp, Node.leafNames] using this

/-- C3: the traversal engine `inher_tree_scan` invokes the operation exactly
once per direct child, in declaration order, forwarding the runtime
parameters unchanged to every invocation (witnessed by a logging
instrumentation of an arbitrary operation), and on an empty child list the
traversal is a no-op. -/
theorem inher_tree_scan_once_per_child_in_order
    {Child : Type u} {π : Type v} {σ : Type w}
    (F : Child → π → σ → σ) (cs : List Child) (ps : π) (s : σ) :
    inher_tree_scan (fun c p st => (F c p st.1, st.2 ++ [(c, p)])) cs ps
        (s, ([] : List (Child × π)))
      = (inher_tree_scan F cs ps s, cs.map (fun c => (c, ps))) ∧
    inher_tree_scan F ([] : List Child) ps s = s := by
  constructor
  · simpa [inher_tree_scan] using inher_tree_scan_recur_log F cs ps s []
  · rfl

/-- C4 counterexample: the claim states acceptance holds if and only if the
child-type sequences are identical, the top-level name tags being free to
differ.  At the concrete input below the child-type sequences are identical
(and nonempty) and only the top-level names differ, yet the program rejects
the combine — `add_eq::apply<Parent, Child>(p, rhs)` takes both operands at
the LEFT type `Parent&` (src lines 130-131), which the right operand cannot
bind to — so the claimed equivalence fails at this input. -/
theorem combine_name_mismatch_rejected_counterexample :
    ¬ (combineAccepted
          (Shape.node "one" [Shape.leaf "A" ScalarTy.int])
          (Shape.node "uno" [Shape.leaf "A" ScalarTy.int]) = true
        ↔ ([Shape.leaf "A" ScalarTy.int] : List Shape)
            = [Shape.leaf "A" ScalarTy.int]) := by
  simp [combineAccepted, shapeListBeq, shapeBeq]

/-- C4 (amended): the combine `a += b` of two composites is accepted exactly
when the child-type sequences are identical in order and type AND, if that
shared child list is nonempty, the two top-level name tags agree as well;
only childless composites may combine under differing name tags.  The
acceptance test is a function of the compile-time shapes alone, so any
mismatch — of the child-type sequences, or of the top-level names on a
nonempty composite — is rejected before any runtime value exists, never as
a runtime error. -/
theorem combine_accepted_iff_types_and_names_match
    (n m : String) (cs ds : List Shape) :
    combineAccepted (Shape.node n cs) (Shape.node m ds) = true
      ↔ cs = ds ∧ (n = m ∨ cs = []) := by
  simp [combineAccepted, shapeListBeq_iff, List.isEmpty_iff]

/-- C5: under nonempty composite name tags, each leaf line of a print
traversal is the conditionally spaced starting prefix, followed by the
space-joined path of composite names from the root down to the leaf,
the leaf name, a ` == ` separator and the payload, one line per leaf. -/
theorem print_lines_carry_space_joined_paths (pfx : String) (t : Node)
    (h : internalNamesNonempty t = true) :
    printLines pfx t
      = (leafEntries t).map
          (fun e => spaced pfx ++ joinSpace (e.1 ++ [e.2.1]) ++ " == "
            ++ toString e.2.2) := by
  rw [printLines_eq]
  apply List.map_congr_left
  intro e he
  have hp := leafEntries_paths_nonempty t h e he
  rw [accPrefix_join e.1 pfx e.2.1 hp]

theorem print_lines_carry_space_joined_paths_witness :
    internalNamesNonempty barTree = true ∧
    printLines "bar" barTree
      = (leafEntries barTree).map
          (fun e => spaced "bar" ++ joinSpace (e.1 ++ [e.2.1]) ++ " == "
            ++ toString e.2.2) :=
  ⟨by simp [barTree, internalNamesNonempty, internalNamesNonemptyList],
   print_lines_carry_space_joined_paths "bar" barTree
     (by simp [barTree, internalNamesNonempty, internalNamesNonemptyList])⟩

/-- C6: randomize followed immediately by print is a total operation of the
model (no error channel exists in the embedding) and emits exactly one
output line per leaf of the tree. -/
theorem randomize_then_print_one_line_per_leaf
    (t : Node) (g : RandSource) (pfx : String) :
    (printLines pfx (rand_gen t g).1).length = t.leafNames.length := by
  have hshape := (rand_gen_spec t g).1
  have hlen : (rand_gen t g).1.leaves.length = t.leaves.length :=
    leaves_length_of_shape_eq hshape
  have hprint := printLines_eq pfx (rand_gen t g).1
  have hproj := leafEntries_proj (rand_gen t g).1
  have hentries : (leafEntries (rand_gen t g).1).length
      = (rand_gen t g).1.leaves.length := by
    have : ((leafEntries (rand_gen t g).1).map (fun e => e.2)).length
        = ((rand_gen t g).1.leaves.map (fun e => (e.1, e.2.2))).length := by
      rw [hproj]
    simpa using this
  simp [hprint, hentries, hlen, Node.leafNames]

/-- C7: one randomize traversal preserves the tree shape, draws exactly one
fresh sample per leaf — advancing the random source by exactly the number
of leaves — and assigns the i-th leaf, in declaration order, the
`static_cast` to its declared scalar type of the one `N(100, 50)` sample
drawn at stream position `pos + i`. -/
theorem randomize_assigns_one_normal_sample_per_leaf
    (t : Node) (g : RandSource) :
    (rand_gen t g).1.shape = t.shape ∧
    (rand_gen t g).2 = ⟨g.stream, g.pos + t.leafNames.length⟩ ∧
    (rand_gen t g).1.leafVals = expectedVals g t.leafTys := by
  have h := rand_gen_spec t g
  simpa [Node.leafVals, Node.leafTys, Node.leafNames] using h

/-- C8: print does not modify the tree, and printing twice in succession
with the same prefix and no intervening modification emits identical
output both times. -/
theorem print_is_read_only_and_repeatable (pfx : String) (t : Node) :
    (printRun pfx t).1 = t ∧
    printLines pfx (printRun pfx t).1 = printLines pfx t := by
  refine ⟨printRun_fst pfx t, ?_⟩
  rw [printRun_fst]

/-- C9: the elementwise combine `a += b` leaves the right-hand operand `b`
entirely unchanged — every leaf payload of `b` keeps its value, and indeed
the whole final state of `b` equals its initial state — even though `b` is
reached through a mutable reference. -/
theorem combine_leaves_rhs_unchanged (a b : Node)
    (_h : compatible a b = true) :
    (addEq a b).2.leafVals = b.leafVals ∧ (addEq a b).2 = b := by
  refine ⟨?_, addEq_snd a b⟩
  rw [addEq_snd a b]

theorem combine_leaves_rhs_unchanged_witness :
    compatible barTree fooTree = true ∧
    ((addEq barTree fooTree).2.leafVals = fooTree.leafVals ∧
     (addEq barTree fooTree).2 = fooTree) :=
  ⟨by simp [compatible, barTree, fooTree, Node.shape, shapeList,
      shapesCompatible, shapeListBeq, shapeBeq],
   combine_leaves_rhs_unchanged barTree fooTree
     (by simp [compatible, barTree, fooTree, Node.shape, shapeList,
        shapesCompatible, shapeListBeq, shapeBeq])⟩

/-- C10: for every declarable tree shape, the default-constructed instance
has exactly the declared shape and every leaf payload value-initialized to
the zero of its scalar type. -/
theorem default_tree_leaves_are_zero (s : Shape) :
    (defaultNode s).shape = s ∧
    (defaultNode s).leafVals = List.replicate s.leaves.length (0 : Rat) := by
  have h := defaultNode_spec s
  refine ⟨h.1, ?_⟩
  simp [Node.leafVals, h.2, List.map_map, Function.comp_def, List.map_const']

theorem print_children_via_scan (pfx : String) :
    ∀ (cs : List Node) (acc : List String),
    inher_tree_scan (fun c p out => out ++ printLines p c) cs pfx acc
      = acc ++ (printRunChildren pfx cs).2
  | [], acc => by simp [inher_tree_scan, inher_tree_scan_recur, printRunChildren]
  | c :: cs, acc => by
      have ih := print_children_via_scan pfx cs (acc ++ printLines pfx c)
      rw [inher_tree_scan_eq_foldl] at ih ⊢
      simp only [printLines] at ih
      simp [List.foldl_cons, ih, printRunChildren, printLines,
        List.append_assoc]

theorem rand_children_via_scan :
    ∀ (cs : List Node) (acc : List Node) (g : RandSource),
    inher_tree_scan
        (fun c _ st => (st.1 ++ [(rand_gen c st.2).1], (rand_gen c st.2).2))
        cs () (acc, g)
      = (acc ++ (rand_gen_children cs g).1, (rand_gen_children cs g).2)
  | [], acc, g => by
      simp [inher_tree_scan, inher_tree_scan_recur, rand_gen_children]
  | c :: cs, acc, g => by
      have ih := rand_children_via_scan cs (acc ++ [(rand_gen c g).1])
        (rand_gen c g).2
      rw [inher_tree_scan_eq_foldl] at ih ⊢
      simp only [List.foldl_cons] at ih ⊢
      rw [ih]
      simp [rand_gen_children, List.append_assoc]

theorem add_children_via_scan :
    ∀ (cs ds : List Node) (accA accB : List Node), cs.length = ds.length →
    inher_tree_scan
        (fun cd _ st =>
          (st.1 ++ [(addEq cd.1 cd.2).1], st.2 ++ [(addEq cd.1 cd.2).2]))
        (cs.zip ds) () (accA, accB)
      = (accA ++ (addEqChildren cs ds).1, accB ++ (addEqChildren cs ds).2)
  | [], [], accA, accB, _ => by
      simp [inher_tree_scan, inher_tree_scan_recur, addEqChildren]
  | c :: cs, d :: ds, accA, accB, h => by
      have ih := add_children_via_scan cs ds (accA ++ [(addEq c d).1])
        (accB ++ [(addEq c d).2]) (by simpa using h)
      rw [inher_tree_scan_eq_foldl] at ih ⊢
      simp only [List.zip_cons_cons, List.foldl_cons] at ih ⊢
      rw [ih]
      simp [addEqChildren, List.append_assoc]

theorem shapesCompatible_of_combineAccepted : ∀ {s t : Shape},
    combineAccepted s t = true → shapesCompatible s t = true
  | .leaf _ _, .leaf _ _, h => by
      simpa [combineAccepted, shapesCompatible] using h
  | .node _ _, .node _ _, h => by
      simp [combineAccepted] at h
      simp [shapesCompatible, h.1]
  | .leaf _ _, .node _ _, h => by simp [combineAccepted] at h
  | .node _ _, .leaf _ _, h => by simp [combineAccepted] at h

theorem compatible_of_accepted_shapes {a b : Node}
    (h : combineAccepted a.shape b.shape = true) : compatible a b = true :=
  shapesCompatible_of_combineAccepted h
